import Mathlib

set_option linter.unusedVariables false

/-!
# Verification of the cfs-dl segment-download orchestrator

Shallow embedding of the Go sources of `cfs-dl` (package `internal/downloader`
and the caller in `cmd/cfs-dl/main.go`), together with proofs about the
embedded definitions.

The embedding covers:

* `resolveSegmentUrl` and the subset of Go's `net/url` it relies on
  (`url.Parse`, `URL.ResolveReference`, `resolvePath`, `URL.String`).
  The `net/url` model is restricted to the URL forms the program handles:
  ASCII input without percent-escapes and without userinfo; host strings are
  taken verbatim (Go's host/port validation is not modelled).
* the status-code check of `downloadSegment` / `downloadAndAppend`,
* the segment-count estimation of `DownloadStream`,
* the collector loop of `DownloadStream` (ordered reassembly of worker
  results arriving in arbitrary order), with the worker pool modelled by the
  list of results that reach the collector, in arrival order.
-/

/-! ## Characters and low-level string helpers (Go `net/url` internals) -/

/-- Go `stringContainsCTLByte`: any byte below 0x20 or equal to 0x7f. -/
def containsCTL (l : List Char) : Bool :=
  l.any (fun c => c.toNat < 0x20 || c.toNat == 0x7f)

/-- Go `strings.Cut(s, sep)` restricted to a single character: splits at the
first occurrence of `sep`, returning the parts before and after it, or `none`
when `sep` does not occur. -/
def cutChar (sep : Char) : List Char → Option (List Char × List Char)
  | [] => none
  | c :: rest =>
    if c = sep then some ([], rest)
    else (cutChar sep rest).map (fun p => (c :: p.1, p.2))

/-- Go `strings.HasPrefix` on character lists. -/
def startsWithL : List Char → List Char → Bool
  | _, [] => true
  | [], _ :: _ => false
  | c :: cs, p :: ps => c = p && startsWithL cs ps

/-! ## `getScheme` (Go `net/url`) -/

/-- Worker for Go's `getscheme`: `consumed` holds the characters scanned so
far in reverse order.  Returns `(scheme, rest)`; an empty scheme means the
input has no scheme component. -/
def getSchemeAux : List Char → List Char → Except String (List Char × List Char)
  | consumed, [] => .ok ([], consumed.reverse)
  | consumed, c :: rest =>
    if c.isAlpha then getSchemeAux (c :: consumed) rest
    else if c.isDigit || c = '+' || c = '-' || c = '.' then
      if consumed = [] then .ok ([], c :: rest)
      else getSchemeAux (c :: consumed) rest
    else if c = ':' then
      if consumed = [] then .error "missing protocol scheme"
      else .ok (consumed.reverse.map Char.toLower, rest)
    else .ok ([], consumed.reverse ++ (c :: rest))

/-! ## `resolvePath` (Go `net/url`) -/

/-- `strings.Split`-style split of a character list at `'/'` boundaries
(the decomposition Go's `resolvePath` loop traverses via `strings.Cut`). -/
def splitSlash : List Char → List (List Char)
  | [] => [[]]
  | c :: rest =>
    if c = '/' then [] :: splitSlash rest
    else
      match splitSlash rest with
      | [] => [[c]]
      | s :: ss => (c :: s) :: ss

/-- Inverse of `splitSlash`: join segments with `'/'`. -/
def joinSlash : List (List Char) → List Char
  | [] => []
  | [s] => s
  | s :: rest => s ++ '/' :: joinSlash rest

/-- Go `base[:strings.LastIndex(base, "/")+1]`: everything up to and including
the last slash (empty when there is no slash). -/
def upToLastSlashL (l : List Char) : List Char :=
  ((l.reverse.dropWhile (fun c => c ≠ '/')).reverse)

/-- One iteration of the segment loop inside Go's `resolvePath`.
The state is the list of path segments written to `dst` (so the `dst` string
is `"/" ++ joinSlash segs`) together with Go's `first` flag.  Go's `..`
branch truncates `dst` at its last slash; on segment lists that is
`dropLast`, and the flag is left `false` there exactly as in Go (a `..`
that finds a slash can only run with `first` already false, since a set
flag means nothing has been written). -/
def rdsStep : List (List Char) × Bool → List Char → List (List Char) × Bool
  | (segs, f), elem =>
    if elem = ['.'] then (segs, false)
    else if elem = ['.', '.'] then
      if segs.length ≤ 1 then ([], true) else (segs.dropLast, false)
    else
      (if f = false ∧ segs = [] then [[], elem] else segs ++ [elem], false)

/-- The states of the `resolvePath` segment loop that are reachable from
its initial state on `splitSlash` input: whenever Go's `first` flag is set
nothing has been written (`segs = []`), and no written segment contains a
slash. -/
def rdsGood (st : List (List Char) × Bool) : Prop :=
  (st.2 = true → st.1 = []) ∧ ∀ seg ∈ st.1, '/' ∉ seg

/-- The remove-dot-segments part of Go's `resolvePath`, applied to the
already-merged path `full`: traverse the `'/'`-separated segments with
`rdsStep`, append a trailing slash when the last segment is a dot segment,
and collapse an initial double slash. -/
def rdsFull (full : List Char) : List Char :=
  if full = [] then []
  else
    let elems := splitSlash full
    let st := elems.foldl rdsStep ([], true)
    let trail : List Char :=
      match elems.getLast? with
      | some e => if e = ['.'] ∨ e = ['.', '.'] then ['/'] else []
      | none => []
    let r := '/' :: (joinSlash st.1 ++ trail)
    match r with
    | '/' :: '/' :: rest => '/' :: rest
    | _ => r

/-- Go `resolvePath(base, ref)` on character lists: merge `ref` with the
directory part of `base` (unless `ref` is absolute or empty), then remove
dot segments. -/
def resolvePathL (base ref : List Char) : List Char :=
  rdsFull
    (if ref = [] then base
     else if ref.head? ≠ some '/' then upToLastSlashL base ++ ref
     else ref)

/-- Go `resolvePath` on strings. -/
def resolvePath (base ref : String) : String :=
  ⟨resolvePathL base.data ref.data⟩

/-! ## `url.URL`, `url.Parse`, `URL.String`, `URL.ResolveReference` -/

/-- The fields of Go's `url.URL` that the modelled subset uses.
`opq` is Go's `Opaque`; userinfo is not modelled (always absent). -/
structure URL where
  scheme : String
  opq : String
  host : String
  path : String
  omitHost : Bool
  forceQuery : Bool
  rawQuery : String
  fragment : String
  deriving DecidableEq, Repr

/-- The zero `url.URL`. -/
def emptyURL : URL :=
  ⟨"", "", "", "", false, false, "", ""⟩

/-- Go `url.parse(rawURL, viaRequest := false)` on the pre-fragment part,
restricted to the modelled subset (no percent-escapes, no userinfo, host
taken verbatim). -/
def parseInner (l : List Char) : Except String URL :=
  if containsCTL l then .error "net/url: invalid control character in URL"
  else if l = ['*'] then .ok { emptyURL with path := "*" }
  else
    match getSchemeAux [] l with
    | .error e => .error e
    | .ok (schemeChars, rest0) =>
      let scheme : String := ⟨schemeChars⟩
      let q :=
        if rest0.getLast? = some '?' ∧ rest0.count '?' = 1 then
          (rest0.dropLast, true, ([] : List Char))
        else
          match cutChar '?' rest0 with
          | none => (rest0, false, ([] : List Char))
          | some (a, b) => (a, false, b)
      let rest := q.1
      let forceQuery := q.2.1
      let rawQuery : String := ⟨q.2.2⟩
      if rest.head? ≠ some '/' then
        if scheme ≠ "" then
          .ok { emptyURL with scheme, opq := ⟨rest⟩, forceQuery, rawQuery }
        else
          let seg := match cutChar '/' rest with | none => rest | some (a, _) => a
          if ':' ∈ seg then .error "first path segment in URL cannot contain colon"
          else .ok { emptyURL with scheme, path := ⟨rest⟩, forceQuery, rawQuery }
      else
        if (scheme ≠ "" ∨ ¬ startsWithL rest ['/', '/', '/']) ∧ startsWithL rest ['/', '/'] then
          let after := rest.drop 2
          let ar :=
            match cutChar '/' after with
            | none => (after, ([] : List Char))
            | some (a, b) => (a, '/' :: b)
          .ok { emptyURL with scheme, host := ⟨ar.1⟩, path := ⟨ar.2⟩, forceQuery, rawQuery }
        else
          let oh : Bool := scheme != ""
          .ok { emptyURL with scheme, omitHost := oh, path := ⟨rest⟩, forceQuery, rawQuery }

/-- Go `url.Parse`: split off the fragment, then parse the rest. -/
def urlParse (rawURL : String) : Except String URL :=
  let fr :=
    match cutChar '#' rawURL.data with
    | none => (rawURL.data, ([] : List Char))
    | some (a, b) => (a, b)
  (parseInner fr.1).map (fun u => { u with fragment := ⟨fr.2⟩ })

/-- Go `URL.String()` on the modelled subset. -/
def urlString (u : URL) : String :=
  let b0 := if u.scheme ≠ "" then u.scheme ++ ":" else ""
  let b2 :=
    if u.opq ≠ "" then b0 ++ u.opq
    else
      let b1 :=
        if u.scheme ≠ "" ∨ u.host ≠ "" then
          if u.omitHost ∧ u.host = "" then b0
          else
            (if u.host ≠ "" ∨ u.path ≠ "" then b0 ++ "//" else b0) ++ u.host
        else b0
      let b1 :=
        if u.path ≠ "" ∧ u.path.data.head? ≠ some '/' ∧ u.host ≠ "" then b1 ++ "/" else b1
      let b1 :=
        if b1 = "" then
          let seg := match cutChar '/' u.path.data with | none => u.path.data | some (a, _) => a
          if ':' ∈ seg then b1 ++ "./" else b1
        else b1
      b1 ++ u.path
  let b3 := if u.forceQuery ∨ u.rawQuery ≠ "" then b2 ++ "?" ++ u.rawQuery else b2
  if u.fragment ≠ "" then b3 ++ "#" ++ u.fragment else b3

/-- Go `URL.ResolveReference` (userinfo absent in the modelled subset). -/
def resolveReference (u ref : URL) : URL :=
  let url := if ref.scheme = "" then { ref with scheme := u.scheme } else ref
  if ref.scheme ≠ "" ∨ ref.host ≠ "" then
    { url with path := resolvePath ref.path "" }
  else if ref.opq ≠ "" then
    { url with host := "", path := "" }
  else
    let url :=
      if ref.path = "" ∧ ¬ ref.forceQuery ∧ ref.rawQuery = "" then
        let url := { url with rawQuery := u.rawQuery }
        if ref.fragment = "" then { url with fragment := u.fragment } else url
      else url
    { url with host := u.host, path := resolvePath u.path ref.path }

/-- Go `resolveSegmentUrl(base, relative, repID)` from
`internal/downloader/download.go`: parse both inputs, resolve the reference,
serialize.  The `repID` parameter is accepted and never used, exactly as in
the source. -/
def resolveSegmentUrl (base relative repID : String) : Except String String :=
  match urlParse base with
  | .error e => .error e
  | .ok u =>
    match urlParse relative with
    | .error e => .error e
    | .ok rel => .ok (urlString (resolveReference u rel))

example : resolveSegmentUrl "https://example.com/video/manifest.mpd" "segment.mp4" "r"
    = .ok "https://example.com/video/segment.mp4" := rfl

example : resolveSegmentUrl "https://example.com/video/manifest/video.mpd" "../../segment.mp4" "r"
    = .ok "https://example.com/segment.mp4" := rfl

example : resolveSegmentUrl "https://example.com/manifest.mpd?token=123" "segment.mp4?query=abc" "r"
    = .ok "https://example.com/segment.mp4?query=abc" := rfl

/-! ## Go error values

`GoError` models Go `error` interface values as far as the program compares
and wraps them: `canceled` is the `context.Canceled` sentinel, `message` a
fresh `fmt.Errorf`/`errors.New` value, and `wrapped` a `fmt.Errorf` with a
`%w` verb.  Go's `==` on error interface values is identity of the sentinel,
modelled by `errEqCanceled`. -/

inductive GoError where
  | canceled
  | message (s : String)
  | wrapped (msg : String) (cause : GoError)
  deriving DecidableEq, Repr

/-- The caller's test `err == context.Canceled` in `run` (main.go):
true exactly for the sentinel value itself, never for a wrapped error. -/
def errEqCanceled : GoError → Bool
  | .canceled => true
  | _ => false

/-- The error return paths of `DownloadStream`, keeping the index where the
source formats one into the message. -/
inductive DownloadError where
  | tempFile (e : GoError)
  | initResolve (e : GoError)
  | initFetch (e : GoError)
  | segFail (i : Nat) (e : GoError)
  | writeFail (i : Nat) (e : GoError)
  deriving DecidableEq, Repr

/-- The `fmt.Errorf("...: %w", err)` wrapping `DownloadStream` applies on
each of its error return paths. -/
def surfacedError : DownloadError → GoError
  | .tempFile e => .wrapped "failed to create temp file" e
  | .initResolve e => .wrapped "failed to resolve init segment url" e
  | .initFetch e => .wrapped "failed to download init segment" e
  | .segFail i e => .wrapped ("failed to download segment " ++ toString i) e
  | .writeFail i e => .wrapped ("failed to write segment " ++ toString i ++ " to file") e

/-! ## Single-segment fetch (status handling)

`downloadSegment` and `downloadAndAppend` both run one HTTP GET and check
`resp.StatusCode != http.StatusOK`.  The HTTP exchange is modelled by the
response the server produced; transport failures are covered by the worker
result's `err` field elsewhere. -/

/-- Payloads are byte sequences. -/
abbrev Payload := List Nat

/-- An HTTP response as far as the fetchers inspect it. -/
structure httpResponse where
  statusCode : Nat
  body : Payload
  deriving DecidableEq, Repr

/-- The response handling of `downloadSegment` (media segments): any status
other than exactly `http.StatusOK` (200) is an error; otherwise the full
body is returned. -/
def downloadSegmentResp (resp : httpResponse) : Except GoError Payload :=
  if resp.statusCode ≠ 200 then .error (.message ("status " ++ toString resp.statusCode))
  else .ok resp.body

/-- The response handling of `downloadAndAppend` (initialization segment):
identical status check. -/
def downloadAndAppendResp (resp : httpResponse) : Except GoError Payload :=
  if resp.statusCode ≠ 200 then .error (.message ("status " ++ toString resp.statusCode))
  else .ok resp.body

/-! ## Segment-count estimation -/

/-- Go's `int(x)` conversion for a finite float: truncation toward zero. -/
def goTrunc (q : ℚ) : ℤ :=
  if 0 ≤ q then ⌊q⌋ else ⌈q⌉

/-- The segment-count estimate in `DownloadStream`:
`segDurationSecs := duration / timescale`,
`totalSegments := int(totalDurationSecs / segDurationSecs)`, plus one when
`totalDurationSecs > 0 && segDurationSecs > 0`.  Real-number arithmetic is
modelled over `ℚ`. -/
def totalSegments (totalDurationSecs : ℚ) (duration timescale : ℤ) : ℤ :=
  let segDurationSecs : ℚ := (duration : ℚ) / (timescale : ℚ)
  let n := goTrunc (totalDurationSecs / segDurationSecs)
  if 0 < totalDurationSecs ∧ 0 < segDurationSecs then n + 1 else n

/-! ## The collector loop of `DownloadStream`

The worker pool is modelled by the sequence of `segmentResult` values that
reach the collector, in arrival order; which results arrive, and in which
order, is unconstrained here and constrained per-theorem (completion order
is nondeterministic; under cancellation workers exit without publishing).
The sink is modelled as the journal of `tmpFile.Write` calls the collector
performs, each recorded with the expected-index cursor at the time of the
write; the bytes in the file are the concatenation of the journal entries.
`segMap` is the Go map, represented as an association list whose lookup is
`List.find?` on the key (insertion shadows, deletion removes the key). -/

structure segmentResult where
  index : Nat
  data : Payload
  err : Option GoError
  deriving DecidableEq, Repr

structure CollectorState where
  segMap : List (Nat × Payload)
  next : Nat
  journal : List (Nat × Payload)
  deriving DecidableEq, Repr

/-- One unfolding of the inner `for` loop of the collector: while `segMap`
contains the next expected index, write that payload (recording it in the
journal), delete it from the map and advance the cursor.  A failing
`tmpFile.Write` (injected through `we`) aborts with the
`failed to write segment` error.  The loop consumes one map entry per
iteration, so `fuel := segMap.length` iterations always suffice; the lemma
`flushFuel_ge` below shows any fuel past that bound gives the same result,
i.e. the fuel never cuts the loop short. -/
def flushFuel (we : Nat → Option GoError) :
    Nat → CollectorState → CollectorState × Option DownloadError
  | 0, st => (st, none)
  | fuel + 1, st =>
    match st.segMap.find? (fun kv => kv.1 == st.next) with
    | none => (st, none)
    | some kv =>
      match we st.next with
      | some e => (st, some (DownloadError.writeFail st.next e))
      | none =>
        flushFuel we fuel ⟨st.segMap.filter (fun x => x.1 != st.next), st.next + 1,
          st.journal ++ [(st.next, kv.2)]⟩

/-- The inner `for` loop of the collector (see `flushFuel`). -/
def flushSegs (we : Nat → Option GoError) (st : CollectorState) :
    CollectorState × Option DownloadError :=
  flushFuel we st.segMap.length st

/-- The `for res := range results` loop of `DownloadStream`: a failing
result aborts the whole collection at once; a successful result is stored
in `segMap` and the contiguous run starting at the cursor is flushed. -/
def collectResults (we : Nat → Option GoError) (st : CollectorState) :
    List segmentResult → CollectorState × Option DownloadError
  | [] => (st, none)
  | r :: rest =>
    match r.err with
    | some e => (st, some (.segFail r.index e))
    | none =>
      match flushSegs we { st with segMap := (r.index, r.data) :: st.segMap } with
      | (st2, some e) => (st2, some e)
      | (st2, none) => collectResults we st2 rest

/-- The observable outcome of one `DownloadStream` invocation. -/
structure RunResult where
  dispatched : List Nat
  fileBytes : List Nat
  journal : List (Nat × Payload)
  path : String
  err : Option DownloadError
  deriving DecidableEq, Repr

/-- `DownloadStream` after the temp file has been created: synchronous init
resolve+fetch (`initRes` is its outcome; on success its payload is the first
write into the sink), then the job indices `startNum, …, startNum+count-1`
are queued, and the collector consumes the arriving results.  On success the
temp file's path is returned; every error path returns the empty path.
A failed init fetch whose transport error strikes mid-body can leave a
partial init prefix in the Go sink; those bytes are not tracked here (no
claim concerns them — the caller is told to discard the artifact). -/
def DownloadStream (tmpName : String) (initRes : Except DownloadError Payload)
    (startNum count : Nat) (arrivals : List segmentResult)
    (we : Nat → Option GoError) : RunResult :=
  match initRes with
  | .error e => ⟨[], [], [], "", some e⟩
  | .ok initData =>
    let jobs := List.range' startNum count
    match collectResults we ⟨[], startNum, []⟩ arrivals with
    | (st, some e) =>
      ⟨jobs, initData ++ (st.journal.map (fun kv => kv.2)).flatten, st.journal, "", some e⟩
    | (st, none) =>
      ⟨jobs, initData ++ (st.journal.map (fun kv => kv.2)).flatten, st.journal, tmpName, none⟩

/-- The result a worker publishes for index `i` when its fetch succeeds with
the (deterministic) payload `payload i`. -/
def mkOkResult (payload : Nat → Payload) (i : Nat) : segmentResult :=
  ⟨i, payload i, none⟩

/-- A possible arrival sequence at the collector when the driving context is
cancelled during dispatch/draining: every arriving result is a successful
fetch of a dispatched index, no index arrives twice, but (because cancelled
workers exit without publishing) not every dispatched index need arrive. -/
def cancelTraceValid (payload : Nat → Payload) (startNum count : Nat)
    (arrivals : List segmentResult) : Prop :=
  (arrivals.map (fun r => r.index)).Nodup ∧
  ∀ r ∈ arrivals, r.index ∈ List.range' startNum count ∧ r = mkOkResult payload r.index

/-- A run in which every `tmpFile.Write` succeeds. -/
def noWriteErr : Nat → Option GoError := fun _ => none

/-- Invariant of the collector state after the results for exactly the
indices in `D` (all fetched successfully, with deterministic payloads
`payload i`) have been processed: the cursor sits on the first index not yet
arrived, the journal holds precisely the contiguous run
`startNum, …, next-1` in increasing order, and the reassembly map holds
precisely the arrived indices at or beyond the cursor. -/
def CollectorInv (payload : Nat → Payload) (startNum : Nat) (D : List Nat)
    (st : CollectorState) : Prop :=
  startNum ≤ st.next ∧
  (∀ j, startNum ≤ j → j < st.next → j ∈ D) ∧
  st.next ∉ D ∧
  st.journal = (List.range' startNum (st.next - startNum)).map (fun i => (i, payload i)) ∧
  ∀ i, st.segMap.find? (fun kv => kv.1 == i) =
    if i ∈ D ∧ st.next ≤ i then some (i, payload i) else none


/-! ## Helper lemmas: the flush loop's fuel never cuts it short -/

theorem length_filter_keyNe_lt (l : List (Nat × Payload)) (n : Nat) (kv : Nat × Payload)
    (h : l.find? (fun kv => kv.1 == n) = some kv) :
    (l.filter (fun x => x.1 != n)).length < l.length :=
  List.length_filter_lt_length_iff_exists.mpr
    ⟨kv, List.mem_of_find?_eq_some h, by simpa using List.find?_some h⟩

theorem flushFuel_succ_of_le (we : Nat → Option GoError) :
    ∀ (fuel : Nat) (st : CollectorState), st.segMap.length ≤ fuel →
      flushFuel we (fuel + 1) st = flushFuel we fuel st := by
  intro fuel
  induction fuel with
  | zero =>
    intro st h
    have hnil : st.segMap = [] := List.length_eq_zero.mp (Nat.le_zero.mp h)
    simp [flushFuel, hnil]
  | succ fuel ih =>
    intro st h
    show (match st.segMap.find? (fun kv => kv.1 == st.next) with
      | none => (st, none)
      | some kv =>
        match we st.next with
        | some e => (st, some (DownloadError.writeFail st.next e))
        | none =>
          flushFuel we (fuel + 1) ⟨st.segMap.filter (fun x => x.1 != st.next), st.next + 1,
            st.journal ++ [(st.next, kv.2)]⟩) = _
    rcases hf : st.segMap.find? (fun kv => kv.1 == st.next) with _ | kv
    · simp [flushFuel, hf]
    · rcases hw : we st.next with _ | e
      · have hlt := length_filter_keyNe_lt st.segMap st.next kv hf
        have hle : (st.segMap.filter (fun x => x.1 != st.next)).length ≤ fuel :=
          Nat.le_of_lt_succ (Nat.lt_of_lt_of_le hlt h)
        simp only [flushFuel, hf, hw]
        exact ih ⟨st.segMap.filter (fun x => x.1 != st.next), st.next + 1,
          st.journal ++ [(st.next, kv.2)]⟩ hle
      · simp [flushFuel, hf, hw]

theorem flushFuel_of_le (we : Nat → Option GoError) (fuel : Nat) (st : CollectorState)
    (h : st.segMap.length ≤ fuel) : flushFuel we fuel st = flushSegs we st := by
  obtain ⟨d, rfl⟩ : ∃ d, fuel = st.segMap.length + d :=
    ⟨fuel - st.segMap.length, by omega⟩
  induction d with
  | zero => rfl
  | succ d ih =>
    have := flushFuel_succ_of_le we (st.segMap.length + d) st (by omega)
    rw [← Nat.add_assoc] at *
    rw [this, ih (by omega)]

/-- The Go flush loop's unfolding equation, fuel-free. -/
theorem flushSegs_eq (we : Nat → Option GoError) (st : CollectorState) :
    flushSegs we st =
      match st.segMap.find? (fun kv => kv.1 == st.next) with
      | none => (st, none)
      | some kv =>
        match we st.next with
        | some e => (st, some (DownloadError.writeFail st.next e))
        | none =>
          flushSegs we ⟨st.segMap.filter (fun x => x.1 != st.next), st.next + 1,
            st.journal ++ [(st.next, kv.2)]⟩ := by
  show flushFuel we st.segMap.length st = _
  rcases hn : st.segMap.length with _ | n
  · have hnil : st.segMap = [] := List.length_eq_zero.mp hn
    simp [flushFuel, hnil]
  · show (match st.segMap.find? (fun kv => kv.1 == st.next) with
      | none => (st, none)
      | some kv =>
        match we st.next with
        | some e => (st, some (DownloadError.writeFail st.next e))
        | none =>
          flushFuel we n ⟨st.segMap.filter (fun x => x.1 != st.next), st.next + 1,
            st.journal ++ [(st.next, kv.2)]⟩) = _
    rcases hf : st.segMap.find? (fun kv => kv.1 == st.next) with _ | kv
    · simp only [hf]
    · simp only [hf]
      rcases hw : we st.next with _ | e
      · simp only [hw]
        have hlt := length_filter_keyNe_lt st.segMap st.next kv hf
        exact flushFuel_of_le we n _ (by simp only; omega)
      · simp only [hw]

/-! ## Helper lemmas: association-list lookup -/

theorem find?_key_filter_ne (l : List (Nat × Payload)) (a i : Nat) :
    (l.filter (fun x => x.1 != a)).find? (fun kv => kv.1 == i) =
      if i = a then none else l.find? (fun kv => kv.1 == i) := by
  induction l with
  | nil => simp
  | cons hd tl ih =>
    obtain ⟨k, v⟩ := hd
    simp only [List.filter_cons]
    by_cases hka : k = a
    · have hb : ((k, v).1 != a) = false := by simp [hka]
      rw [hb]
      simp only [Bool.false_eq_true, if_false, ih]
      by_cases hia : i = a
      · simp [hia]
      · simp only [hia, if_false]
        rw [List.find?_cons_of_neg _ (by simp only [beq_iff_eq]; omega)]
    · have hb : ((k, v).1 != a) = true := by simp [hka]
      rw [hb]
      simp only [if_true]
      by_cases hki : k = i
      · subst hki
        rw [List.find?_cons_of_pos _ (by simp), List.find?_cons_of_pos _ (by simp)]
        rw [if_neg hka]
      · rw [List.find?_cons_of_neg _ (by simp only [beq_iff_eq]; omega),
          List.find?_cons_of_neg _ (by simp only [beq_iff_eq]; omega)]
        exact ih

theorem range'_append_one (s m n : Nat) :
    List.range' s m ++ List.range' (s + m) n = List.range' s (m + n) := by
  have h := List.range'_append s m n 1
  simp only [Nat.one_mul] at h
  rw [Nat.add_comm n m] at h
  exact h

/-- Behaviour of the flush loop when the reassembly map holds exactly the
arrived indices `E` at or beyond the cursor (with deterministic payloads):
it writes exactly the contiguous run of arrived indices starting at the
cursor, in increasing order, and stops at the first gap. -/
theorem flushSegs_spec_aux (payload : Nat → Payload) (E : List Nat) :
    ∀ (n : Nat) (st : CollectorState), st.segMap.length ≤ n →
      (∀ i, st.segMap.find? (fun kv => kv.1 == i) =
          if i ∈ E ∧ st.next ≤ i then some (i, payload i) else none) →
      ∃ (k : Nat) (st' : CollectorState),
        flushSegs noWriteErr st = (st', none) ∧
        (∀ j, j < k → st.next + j ∈ E) ∧
        st.next + k ∉ E ∧
        st'.next = st.next + k ∧
        st'.journal = st.journal ++ (List.range' st.next k).map (fun i => (i, payload i)) ∧
        (∀ i, st'.segMap.find? (fun kv => kv.1 == i) =
          if i ∈ E ∧ st'.next ≤ i then some (i, payload i) else none) := by
  intro n
  induction n with
  | zero =>
    intro st hlen hchar
    have hnil : st.segMap = [] := List.length_eq_zero.mp (Nat.le_zero.mp hlen)
    have hnext : st.next ∉ E := by
      have := hchar st.next
      rw [hnil] at this
      simp only [List.find?_nil] at this
      by_contra hmem
      rw [if_pos ⟨hmem, Nat.le_refl _⟩] at this
      exact Option.noConfusion this
    refine ⟨0, st, ?_, ?_, ?_, ?_, ?_, ?_⟩
    · rw [flushSegs_eq]
      have : st.segMap.find? (fun kv => kv.1 == st.next) = none := by
        rw [hnil]; simp
      simp only [this]
    · intro j hj; omega
    · simpa using hnext
    · simp
    · simp
    · simpa using hchar
  | succ n ih =>
    intro st hlen hchar
    by_cases hmem : st.next ∈ E
    · -- the cursor's index has arrived: one write happens, then recurse
      have hfind : st.segMap.find? (fun kv => kv.1 == st.next)
          = some (st.next, payload st.next) := by
        rw [hchar st.next, if_pos ⟨hmem, Nat.le_refl _⟩]
      have hlt := length_filter_keyNe_lt st.segMap st.next _ hfind
      set st1 : CollectorState :=
        ⟨st.segMap.filter (fun x => x.1 != st.next), st.next + 1,
          st.journal ++ [(st.next, payload st.next)]⟩ with hst1
      have hchar1 : ∀ i, st1.segMap.find? (fun kv => kv.1 == i) =
          if i ∈ E ∧ st1.next ≤ i then some (i, payload i) else none := by
        intro i
        rw [hst1]
        dsimp only
        rw [find?_key_filter_ne, hchar i]
        by_cases hia : i = st.next
        · have hno : ¬ (i ∈ E ∧ st.next + 1 ≤ i) := fun hc => absurd hc.2 (by omega)
          simp only [hia, if_pos rfl] at hno ⊢
          rw [if_neg hno]
          simp
        · rw [if_neg hia]
          by_cases hiE : i ∈ E
          · by_cases hile : st.next ≤ i
            · rw [if_pos ⟨hiE, hile⟩, if_pos ⟨hiE, by omega⟩]
            · have hn1 : ¬ (i ∈ E ∧ st.next ≤ i) := fun hc => absurd hc.2 (by omega)
              have hn2 : ¬ (i ∈ E ∧ st.next + 1 ≤ i) := fun hc => absurd hc.2 (by omega)
              rw [if_neg hn1, if_neg hn2]
          · rw [if_neg (by tauto), if_neg (by tauto)]
      have hlen1 : st1.segMap.length ≤ n := by
        rw [hst1]; dsimp only; omega
      obtain ⟨k, st', hflush, harr, hgap, hnext, hjour, hchar'⟩ := ih st1 hlen1 hchar1
      refine ⟨k + 1, st', ?_, ?_, ?_, ?_, ?_, ?_⟩
      · rw [flushSegs_eq]
        simp only [hfind]
        have hwe : noWriteErr st.next = none := rfl
        simp only [hwe]
        exact hflush
      · intro j hj
        rcases j with _ | j
        · simpa using hmem
        · have := harr j (by omega)
          rw [hst1] at this
          dsimp only at this
          have h2 : st.next + (j + 1) = st.next + 1 + j := by omega
          rw [h2]
          exact this
      · have := hgap
        rw [hst1] at this
        dsimp only at this
        have h2 : st.next + (k + 1) = st.next + 1 + k := by omega
        rw [h2]
        exact this
      · rw [hnext, hst1]
        dsimp only
        omega
      · rw [hjour, hst1]
        dsimp only
        rw [List.range'_succ, List.map_cons, List.append_assoc]
        rfl
      · exact hchar'
    · -- the cursor's index has not arrived: the loop stops at once
      have hfind : st.segMap.find? (fun kv => kv.1 == st.next) = none := by
        rw [hchar st.next, if_neg (by tauto)]
      refine ⟨0, st, ?_, ?_, ?_, ?_, ?_, ?_⟩
      · rw [flushSegs_eq]
        simp only [hfind]
      · intro j hj; omega
      · simpa using hmem
      · simp
      · simp
      · simpa using hchar

/-- Processing any sequence of successful, pairwise-distinct results
preserves the collector invariant and never fails. -/
theorem collectResults_ok_spec (payload : Nat → Payload) (startNum : Nat) :
    ∀ (xs D : List Nat) (st : CollectorState),
      CollectorInv payload startNum D st →
      xs.Nodup → (∀ i ∈ xs, i ∉ D) → (∀ i ∈ xs, startNum ≤ i) →
      ∃ (st' : CollectorState) (D' : List Nat),
        (∀ i, i ∈ D' ↔ i ∈ xs ∨ i ∈ D) ∧
        collectResults noWriteErr st (xs.map (mkOkResult payload)) = (st', none) ∧
        CollectorInv payload startNum D' st' := by
  intro xs
  induction xs with
  | nil =>
    intro D st hInv _ _ _
    exact ⟨st, D, by simp, rfl, hInv⟩
  | cons a rest ih =>
    intro D st hInv hnd hdisj hge
    obtain ⟨hsn, hcontig, hnD, hjour, hchar⟩ := hInv
    have haD : a ∉ D := hdisj a (by simp)
    have hasn : startNum ≤ a := hge a (by simp)
    have hanext : st.next ≤ a := by
      by_contra hlt
      exact haD (hcontig a hasn (by omega))
    set st1 : CollectorState := { st with segMap := (a, payload a) :: st.segMap } with hst1
    have hchar1 : ∀ i, st1.segMap.find? (fun kv => kv.1 == i) =
        if i ∈ (a :: D) ∧ st1.next ≤ i then some (i, payload i) else none := by
      intro i
      rw [hst1]; dsimp only
      by_cases hia : i = a
      · subst hia
        rw [List.find?_cons_of_pos _ (by simp)]
        rw [if_pos ⟨by simp, hanext⟩]
      · rw [List.find?_cons_of_neg _ (by simp only [beq_iff_eq]; omega), hchar i]
        simp only [List.mem_cons, hia, false_or]
    obtain ⟨k, st2, hflush, harr, hgap, hnext2, hjour2, hchar2⟩ :=
      flushSegs_spec_aux payload (a :: D) st1.segMap.length st1 (Nat.le_refl _) hchar1
    rw [hst1] at harr hgap hnext2 hjour2
    dsimp only at harr hgap hnext2 hjour2
    have hInv2 : CollectorInv payload startNum (a :: D) st2 := by
      refine ⟨?_, ?_, ?_, ?_, ?_⟩
      · rw [hnext2]; omega
      · intro j hjs hj2
        rw [hnext2] at hj2
        by_cases hjn : j < st.next
        · exact List.mem_cons_of_mem _ (hcontig j hjs hjn)
        · have hj : j = st.next + (j - st.next) := by omega
          rw [hj]
          exact harr _ (by omega)
      · rw [hnext2]
        exact hgap
      · rw [hjour2, hjour, hnext2]
        rw [← List.map_append]
        have hr : List.range' startNum (st.next - startNum) ++ List.range' st.next k
            = List.range' startNum (st.next - startNum + k) := by
          have h := range'_append_one startNum (st.next - startNum) k
          rwa [show startNum + (st.next - startNum) = st.next from by omega] at h
        rw [hr]
        congr 2
        omega
      · rw [hnext2] at hchar2
        rw [hnext2]
        exact hchar2
    have hnda : a ∉ rest := (List.nodup_cons.mp hnd).1
    have hnd' : rest.Nodup := (List.nodup_cons.mp hnd).2
    have hdisj' : ∀ i ∈ rest, i ∉ a :: D := by
      intro i hi
      simp only [List.mem_cons, not_or]
      exact ⟨fun hia => hnda (hia ▸ hi), hdisj i (List.mem_cons_of_mem _ hi)⟩
    have hge' : ∀ i ∈ rest, startNum ≤ i := fun i hi => hge i (List.mem_cons_of_mem _ hi)
    obtain ⟨st', D', hD', hcoll, hInv'⟩ := ih (a :: D) st2 hInv2 hnd' hdisj' hge'
    refine ⟨st', D', ?_, ?_, hInv'⟩
    · intro i
      rw [hD' i]
      simp only [List.mem_cons]
      tauto
    · show collectResults noWriteErr st
        ((mkOkResult payload a) :: rest.map (mkOkResult payload)) = (st', none)
      simp only [collectResults, mkOkResult]
      rw [hst1] at hflush
      simp only [hflush]
      exact hcoll

/-- The collector processes a concatenated arrival sequence sequentially and
stops at the first failure. -/
theorem collectResults_append (we : Nat → Option GoError) :
    ∀ (l₁ l₂ : List segmentResult) (st : CollectorState),
      collectResults we st (l₁ ++ l₂) =
        match collectResults we st l₁ with
        | (st1, some e) => (st1, some e)
        | (st1, none) => collectResults we st1 l₂ := by
  intro l₁
  induction l₁ with
  | nil => intro l₂ st; rfl
  | cons r rest ih =>
    intro l₂ st
    simp only [List.cons_append, collectResults]
    rcases he : r.err with _ | e
    · rcases hf : flushSegs we { st with segMap := (r.index, r.data) :: st.segMap }
        with ⟨st2, oe⟩
      rcases oe with _ | e2
      · exact ih l₂ st2
      · rfl
    · rfl

/-- The collector invariant holds at the start of draining. -/
theorem collectorInv_init (payload : Nat → Payload) (startNum : Nat) :
    CollectorInv payload startNum [] ⟨[], startNum, []⟩ := by
  refine ⟨Nat.le_refl _, ?_, by simp, by simp, by intro i; simp⟩
  intro j h1 h2
  have h2' : j < startNum := h2
  exact absurd h1 (by omega)

/-- Draining a full set of successful results, in any arrival order, always
ends with the journal holding exactly the dispatched segments in strictly
increasing index order. -/
theorem collect_of_perm (payload : Nat → Payload) (startNum N : Nat)
    (arrivals : List segmentResult)
    (hperm : arrivals.Perm ((List.range' startNum N).map (mkOkResult payload))) :
    ∃ st', collectResults noWriteErr ⟨[], startNum, []⟩ arrivals = (st', none) ∧
      st'.journal = (List.range' startNum N).map (fun i => (i, payload i)) := by
  have hmem : ∀ r ∈ arrivals, r = mkOkResult payload r.index := by
    intro r hr
    obtain ⟨i, hi, rfl⟩ := List.mem_map.mp (hperm.subset hr)
    rfl
  have harr : arrivals = (arrivals.map (fun r => r.index)).map (mkOkResult payload) := by
    rw [List.map_map]
    have h : ∀ r ∈ arrivals, ((mkOkResult payload) ∘ (fun r => r.index)) r = id r :=
      fun r hr => (hmem r hr).symm
    rw [List.map_congr_left h, List.map_id]
  set xs := arrivals.map (fun r => r.index) with hxs
  have hxsperm : xs.Perm (List.range' startNum N) := by
    have h := hperm.map (fun r => r.index)
    rw [List.map_map] at h
    have h2 : ∀ i ∈ List.range' startNum N,
        ((fun r => r.index) ∘ (mkOkResult payload)) i = id i := fun i _ => rfl
    rw [List.map_congr_left h2, List.map_id] at h
    exact h
  have hnodup : xs.Nodup := hxsperm.nodup_iff.mpr (List.nodup_range' ..)
  have hmemiff : ∀ i, i ∈ xs ↔ i ∈ List.range' startNum N := fun i => hxsperm.mem_iff
  obtain ⟨st', D', hD', hcoll, hInv'⟩ :=
    collectResults_ok_spec payload startNum xs [] ⟨[], startNum, []⟩
      (collectorInv_init payload startNum) hnodup (by simp)
      (fun i hi => (List.mem_range'_1.mp ((hmemiff i).mp hi)).1)
  obtain ⟨hsn, hcontig, hnD, hjour, hchar⟩ := hInv'
  have hD2 : ∀ i, i ∈ D' ↔ i ∈ List.range' startNum N := by
    intro i
    rw [hD' i]
    simp [hmemiff i]
  have hnext : st'.next = startNum + N := by
    rcases Nat.lt_trichotomy st'.next (startNum + N) with h1 | h1 | h1
    · exact absurd ((hD2 _).mpr (List.mem_range'_1.mpr ⟨hsn, h1⟩)) hnD
    · exact h1
    · have hm : startNum + N ∈ D' := hcontig (startNum + N) (by omega) h1
      have := List.mem_range'_1.mp ((hD2 _).mp hm)
      omega
  refine ⟨st', ?_, ?_⟩
  · rw [harr]
    exact hcoll
  · rw [hjour, hnext]
    congr 2
    omega

/-! ## Claim theorems -/

/-- C1: for every successful run of `DownloadStream` with estimated segment
count `N` and initialization payload `initData`, and for every order in
which the `N` segment results arrive at the collector, the bytes written to
the sink equal `initData` followed by the payloads of segments
`startNum, …, startNum+N-1` concatenated in strictly increasing index order;
no segment payload is written twice and none is skipped (the journal is
exactly one write per index, in order). -/
theorem DownloadStream_order_invariant (tmpName : String) (initData : Payload)
    (payload : Nat → Payload) (startNum N : Nat) (arrivals : List segmentResult)
    (hperm : arrivals.Perm ((List.range' startNum N).map (mkOkResult payload))) :
    DownloadStream tmpName (.ok initData) startNum N arrivals noWriteErr =
      ⟨List.range' startNum N,
        initData ++ ((List.range' startNum N).map payload).flatten,
        (List.range' startNum N).map (fun i => (i, payload i)),
        tmpName, none⟩ := by
  obtain ⟨st', hcoll, hjour⟩ := collect_of_perm payload startNum N arrivals hperm
  simp only [DownloadStream]
  rw [hcoll]
  dsimp only
  rw [hjour, List.map_map]
  rfl

/-- Witness for C1 at a concrete out-of-order arrival sequence. -/
theorem DownloadStream_order_invariant_witness :
    DownloadStream "out.mp4" (.ok [1, 2]) 5 3
        [mkOkResult (fun i => [i, i + 1]) 7, mkOkResult (fun i => [i, i + 1]) 5,
          mkOkResult (fun i => [i, i + 1]) 6] noWriteErr =
      ⟨List.range' 5 3, [1, 2] ++ ((List.range' 5 3).map (fun i => [i, i + 1])).flatten,
        (List.range' 5 3).map (fun i => (i, [i, i + 1])),
        "out.mp4", none⟩ :=
  DownloadStream_order_invariant "out.mp4" [1, 2] (fun i => [i, i + 1]) 5 3 _ (by decide)

/-- C2: if the first failing result the collector receives is for segment
index `k`, `DownloadStream` stops consuming further results (the outcome is
independent of everything after the failure) and returns an error
identifying segment `k`; no payload of any segment with index ≥ `k`
(including segments already buffered out of order) is ever written to the
sink; only a contiguous run of segments with index below `k` may have been
written before the failure. -/
theorem DownloadStream_failFast (tmpName : String) (initData : Payload)
    (payload : Nat → Payload) (startNum count k : Nat) (d : Payload) (e : GoError)
    (xs : List Nat) (rest : List segmentResult)
    (hnd : xs.Nodup) (hge : ∀ i ∈ xs, startNum ≤ i) (hkx : k ∉ xs) (hks : startNum ≤ k) :
    ∃ m, startNum ≤ m ∧ m ≤ k ∧
      DownloadStream tmpName (.ok initData) startNum count
          (xs.map (mkOkResult payload) ++ ⟨k, d, some e⟩ :: rest) noWriteErr =
        ⟨List.range' startNum count,
          initData ++ ((List.range' startNum (m - startNum)).map payload).flatten,
          (List.range' startNum (m - startNum)).map (fun i => (i, payload i)),
          "", some (.segFail k e)⟩ ∧
      (∀ p ∈ (List.range' startNum (m - startNum)).map (fun i => (i, payload i)), p.1 < k) ∧
      DownloadStream tmpName (.ok initData) startNum count
          (xs.map (mkOkResult payload) ++ ⟨k, d, some e⟩ :: rest) noWriteErr =
        DownloadStream tmpName (.ok initData) startNum count
          (xs.map (mkOkResult payload) ++ [⟨k, d, some e⟩]) noWriteErr := by
  obtain ⟨st', D', hD', hcoll, hInv⟩ :=
    collectResults_ok_spec payload startNum xs [] ⟨[], startNum, []⟩
      (collectorInv_init payload startNum) hnd (by simp) hge
  obtain ⟨hsn, hcontig, hnD, hjour, hchar⟩ := hInv
  have hmk : st'.next ≤ k := by
    by_contra h
    have hkD : k ∈ D' := hcontig k hks (by omega)
    have := (hD' k).mp hkD
    simp at this
    exact hkx this
  have hfull : ∀ tail, collectResults noWriteErr ⟨[], startNum, []⟩
      (xs.map (mkOkResult payload) ++ (⟨k, d, some e⟩ : segmentResult) :: tail) =
      (st', some (.segFail k e)) := by
    intro tail
    rw [collectResults_append, hcoll]
    rfl
  refine ⟨st'.next, hsn, hmk, ?_, ?_, ?_⟩
  · simp only [DownloadStream, hfull]
    rw [hjour, List.map_map]
    rfl
  · intro p hp
    obtain ⟨j, hj, rfl⟩ := List.mem_map.mp hp
    have := List.mem_range'_1.mp hj
    omega
  · simp only [DownloadStream, hfull]

/-- Witness for C2: segment 1 fails after 2 and 0 arrived; buffered 2 and
trailing 3 never reach the sink. -/
theorem DownloadStream_failFast_witness :
    [2, 0].Nodup ∧
    (∃ m, 0 ≤ m ∧ m ≤ 1 ∧
      DownloadStream "out.mp4" (.ok [7]) 0 4
          ([2, 0].map (mkOkResult (fun i => [i])) ++
            ⟨1, [9], some (.message "boom")⟩ :: [mkOkResult (fun i => [i]) 3]) noWriteErr =
        ⟨List.range' 0 4,
          [7] ++ ((List.range' 0 (m - 0)).map (fun i => [i])).flatten,
          (List.range' 0 (m - 0)).map (fun i => (i, [i])),
          "", some (.segFail 1 (.message "boom"))⟩ ∧
      (∀ p ∈ (List.range' 0 (m - 0)).map (fun i => (i, ([i] : Payload))), p.1 < 1) ∧
      DownloadStream "out.mp4" (.ok [7]) 0 4
          ([2, 0].map (mkOkResult (fun i => [i])) ++
            ⟨1, [9], some (.message "boom")⟩ :: [mkOkResult (fun i => [i]) 3]) noWriteErr =
        DownloadStream "out.mp4" (.ok [7]) 0 4
          ([2, 0].map (mkOkResult (fun i => [i])) ++ [⟨1, [9], some (.message "boom")⟩])
          noWriteErr) :=
  ⟨by decide,
    DownloadStream_failFast "out.mp4" [7] (fun i => [i]) 0 4 1 [9] (.message "boom")
      [2, 0] [mkOkResult (fun i => [i]) 3] (by decide) (by decide) (by decide) (by decide)⟩

/-- C3 (code divergence exhibit): when the context is cancelled during
draining, workers exit without publishing, so the collector can see a valid
cancellation trace that is a strict subset of the dispatched indices — and
`DownloadStream` then returns the temp-file path with a nil error, a
partial result reported as success.  Here 2 segments are dispatched, only
segment 0's result arrives, and the run still "succeeds". -/
theorem DownloadStream_cancelled_partial_success :
    cancelTraceValid (fun i => [i + 100]) 0 2 [⟨0, [100], none⟩] ∧
    DownloadStream "stream-video-123.mp4" (.ok [9]) 0 2 [⟨0, [100], none⟩] noWriteErr =
      ⟨[0, 1], [9, 100], [(0, [100])], "stream-video-123.mp4", none⟩ := by
  constructor
  · constructor
    · decide
    · decide
  · decide

/-- C4 (code divergence exhibit): every error `DownloadStream` surfaces is
`fmt.Errorf`-wrapped, so the caller's test `err == context.Canceled` in
`run` (main.go) is false for every possible returned error — including the
cancellation ones — and the `"Download cancelled."` branch can never be
taken. -/
theorem run_canceled_check_never_fires (e : DownloadError) :
    errEqCanceled (surfacedError e) = false := by
  cases e <;> rfl

/-- C8: if resolving or fetching the initialization segment fails,
`DownloadStream` returns that failure immediately: no index is dispatched,
nothing is written, and the empty path is returned. -/
theorem DownloadStream_init_failure (tmpName : String) (e : DownloadError)
    (startNum count : Nat) (arrivals : List segmentResult) (we : Nat → Option GoError) :
    DownloadStream tmpName (.error e) startNum count arrivals we =
      ⟨[], [], [], "", some e⟩ := rfl

/-- C10: `DownloadStream` returns the empty path on every error path and
the temp file's path exactly on success. -/
theorem DownloadStream_error_path_empty (tmpName : String)
    (initRes : Except DownloadError Payload) (startNum count : Nat)
    (arrivals : List segmentResult) (we : Nat → Option GoError) :
    ((DownloadStream tmpName initRes startNum count arrivals we).err ≠ none →
      (DownloadStream tmpName initRes startNum count arrivals we).path = "") ∧
    ((DownloadStream tmpName initRes startNum count arrivals we).err = none →
      (DownloadStream tmpName initRes startNum count arrivals we).path = tmpName) := by
  rcases initRes with e | initData
  · exact ⟨fun _ => rfl, fun h => absurd h (by simp [DownloadStream])⟩
  · simp only [DownloadStream]
    rcases h : collectResults we ⟨[], startNum, []⟩ arrivals with ⟨st, oe⟩
    rcases oe with _ | e2
    · exact ⟨fun hc => absurd rfl hc, fun _ => rfl⟩
    · exact ⟨fun _ => rfl, fun hc => Option.noConfusion hc⟩

/-- Witness for C10: an init-fetch failure yields the empty path; the same
inputs with a successful init yield the temp path. -/
theorem DownloadStream_error_path_empty_witness :
    (DownloadStream "t.mp4" (.error (.initFetch (.message "boom"))) 0 1 [] noWriteErr).path
      = "" ∧
    (DownloadStream "t.mp4" (.ok [1]) 0 1 [⟨0, [2], none⟩] noWriteErr).path = "t.mp4" :=
  ⟨(DownloadStream_error_path_empty "t.mp4" (.error (.initFetch (.message "boom")))
      0 1 [] noWriteErr).1 (by decide),
    (DownloadStream_error_path_empty "t.mp4" (.ok [1]) 0 1 [⟨0, [2], none⟩] noWriteErr).2
      (by decide)⟩

/-- C5 counterexample: 206 Partial Content is a 2xx status, yet both
fetchers reject it — the source checks `resp.StatusCode != http.StatusOK`,
not membership in the 2xx class. -/
theorem downloadSegment_2xx_counterexample :
    (200 ≤ 206 ∧ 206 < 300) ∧
    downloadSegmentResp ⟨206, [1, 2, 3]⟩ = .error (.message "status 206") ∧
    downloadAndAppendResp ⟨206, [1, 2, 3]⟩ = .error (.message "status 206") := by
  refine ⟨by omega, ?_, ?_⟩ <;> rfl

/-- C5 (amended): a single-segment fetch fails with a status error if and
only if the response status is not exactly 200; every 200 response yields
the full body. -/
theorem downloadSegment_status_iff_200 (resp : httpResponse) :
    (downloadSegmentResp resp = .ok resp.body ↔ resp.statusCode = 200) ∧
    ((downloadSegmentResp resp).isOk = false ↔ resp.statusCode ≠ 200) ∧
    (downloadAndAppendResp resp = .ok resp.body ↔ resp.statusCode = 200) ∧
    ((downloadAndAppendResp resp).isOk = false ↔ resp.statusCode ≠ 200) := by
  unfold downloadSegmentResp downloadAndAppendResp
  by_cases h : resp.statusCode = 200 <;> simp [h, Except.isOk, Except.toBool]

/-- C9: the result of `resolveSegmentUrl` is independent of its `repID`
argument — the parameter is accepted and ignored by the source. -/
theorem resolveSegmentUrl_repID_irrelevant (base relative id1 id2 : String) :
    resolveSegmentUrl base relative id1 = resolveSegmentUrl base relative id2 := rfl

/-- C6: for `totalDurationSecs = T ≥ 0`, segment duration `d > 0` and
timescale `s > 0`, the estimated segment count equals `⌊T / (d/s)⌋`,
incremented by one exactly when both `T > 0` and `d/s > 0`; the dispatched
indices are exactly `startNum, …, startNum + count - 1`; in particular
`T = 11`, `d = 5`, `s = 1` yields count 3. -/
theorem totalSegments_estimate (T : ℚ) (d s : ℤ) (hT : 0 ≤ T) (hd : 0 < d) (hs : 0 < s) :
    totalSegments T d s =
      ⌊T / ((d : ℚ) / (s : ℚ))⌋ + (if 0 < T ∧ 0 < (d : ℚ) / (s : ℚ) then 1 else 0) ∧
    totalSegments 11 5 1 = 3 ∧
    ∀ (tmpName : String) (initData : Payload) (startNum : Nat)
      (arrivals : List segmentResult) (we : Nat → Option GoError),
      (DownloadStream tmpName (.ok initData) startNum (totalSegments T d s).toNat
          arrivals we).dispatched
        = List.range' startNum (totalSegments T d s).toNat := by
  have hsd : 0 < (d : ℚ) / (s : ℚ) :=
    div_pos (by exact_mod_cast hd) (by exact_mod_cast hs)
  refine ⟨?_, ?_, ?_⟩
  · unfold totalSegments goTrunc
    dsimp only
    have hq : 0 ≤ T / ((d : ℚ) / (s : ℚ)) := div_nonneg hT (le_of_lt hsd)
    rw [if_pos hq]
    by_cases hT0 : 0 < T
    · rw [if_pos ⟨hT0, hsd⟩, if_pos ⟨hT0, hsd⟩]
    · rw [if_neg (fun hc => hT0 hc.1), if_neg (fun hc => hT0 hc.1)]
      omega
  · unfold totalSegments goTrunc
    dsimp only
    have h1 : ((5 : ℤ) : ℚ) / ((1 : ℤ) : ℚ) = 5 := by norm_num
    rw [h1]
    have h2 : ⌊(11 : ℚ) / 5⌋ = 2 :=
      Int.floor_eq_iff.mpr ⟨by norm_num, by norm_num⟩
    rw [if_pos (by norm_num : (0:ℚ) ≤ (11:ℚ)/5), h2,
      if_pos (by norm_num : (0:ℚ) < 11 ∧ (0:ℚ) < 5)]
    omega
  · intro tmpName initData startNum arrivals we
    simp only [DownloadStream]
    rcases h : collectResults we ⟨[], startNum, []⟩ arrivals with ⟨st, oe⟩
    rcases oe with _ | e2 <;> rfl

/-- Witness for C6 at `T = 11`, `d = 5`, `s = 1`. -/
theorem totalSegments_estimate_witness :
    totalSegments 11 5 1 =
      ⌊(11 : ℚ) / (((5 : ℤ) : ℚ) / ((1 : ℤ) : ℚ))⌋ +
        (if (0 : ℚ) < 11 ∧ (0 : ℚ) < ((5 : ℤ) : ℚ) / ((1 : ℤ) : ℚ) then 1 else 0) ∧
    totalSegments 11 5 1 = 3 :=
  ⟨(totalSegments_estimate 11 5 1 (by norm_num) (by norm_num) (by norm_num)).1,
    (totalSegments_estimate 11 5 1 (by norm_num) (by norm_num) (by norm_num)).2.1⟩

theorem splitSlash_ne_nil (l : List Char) : splitSlash l ≠ [] := by
  cases l with
  | nil => simp [splitSlash]
  | cons c rest =>
    simp only [splitSlash]
    by_cases h : c = '/'
    · simp [h]
    · rw [if_neg h]
      rcases hs : splitSlash rest with _ | ⟨s, ss⟩ <;> simp

theorem mem_splitSlash_no_slash (l : List Char) :
    ∀ seg ∈ splitSlash l, '/' ∉ seg := by
  induction l with
  | nil => intro seg hs; simp [splitSlash] at hs; simp [hs]
  | cons c rest ih =>
    intro seg hs
    simp only [splitSlash] at hs
    by_cases h : c = '/'
    · rw [if_pos h] at hs
      rcases List.mem_cons.mp hs with h1 | h1
      · simp [h1]
      · exact ih seg h1
    · rw [if_neg h] at hs
      rcases hsp : splitSlash rest with _ | ⟨s, ss⟩
      · exact absurd hsp (splitSlash_ne_nil rest)
      · rw [hsp] at hs
        rcases List.mem_cons.mp hs with h1 | h1
        · subst h1
          intro hc
          rcases List.mem_cons.mp hc with h2 | h2
          · exact h h2.symm
          · exact ih s (by rw [hsp]; simp) h2
        · exact ih seg (by rw [hsp]; simp [h1])

theorem splitSlash_append_slash (a b : List Char) :
    splitSlash (a ++ '/' :: b) = splitSlash a ++ splitSlash b := by
  induction a with
  | nil => simp [splitSlash]
  | cons c a' ih =>
    by_cases h : c = '/'
    · simp only [List.cons_append, splitSlash, if_pos h, List.append_eq]
      rw [ih]
    · simp only [List.cons_append, splitSlash, if_neg h, List.append_eq]
      rcases hsp : splitSlash a' with _ | ⟨s, ss⟩
      · exact absurd hsp (splitSlash_ne_nil a')
      · rw [ih, hsp]
        simp

theorem splitSlash_no_slash (w : List Char) (h : '/' ∉ w) : splitSlash w = [w] := by
  induction w with
  | nil => rfl
  | cons c w' ih =>
    simp only [splitSlash]
    rw [if_neg (fun hc => h (by simp [hc]))]
    rw [ih (fun hc => h (by simp [hc]))]

theorem joinSlash_append_single (l : List (List Char)) (a : List Char) (h : l ≠ []) :
    joinSlash (l ++ [a]) = joinSlash l ++ '/' :: a := by
  induction l with
  | nil => exact absurd rfl h
  | cons s rest ih =>
    rcases rest with _ | ⟨t, ts⟩
    · simp [joinSlash]
    · have h2 := ih (by simp)
      simp only [List.cons_append] at h2 ⊢
      simp only [joinSlash]
      rw [h2]
      simp

theorem joinSlash_eq_nil (l : List (List Char)) (h : joinSlash l = []) :
    l = [] ∨ l = [[]] := by
  rcases l with _ | ⟨s, rest⟩
  · exact Or.inl rfl
  · rcases rest with _ | ⟨t, ts⟩
    · simp only [joinSlash] at h
      subst h
      exact Or.inr rfl
    · simp only [joinSlash] at h
      exact absurd h (by simp)

theorem slash_mem_joinSlash_iff (l : List (List Char)) (h : ∀ seg ∈ l, '/' ∉ seg) :
    '/' ∈ joinSlash l ↔ 2 ≤ l.length := by
  rcases l with _ | ⟨s, rest⟩
  · simp [joinSlash]
  · rcases rest with _ | ⟨t, ts⟩
    · simp only [joinSlash]
      constructor
      · intro hc
        exact absurd hc (h s (by simp))
      · intro hc
        simp at hc
    · simp only [joinSlash]
      constructor
      · intro _
        simp
      · intro _
        simp

theorem append_slash_inj (u1 : List Char) :
    ∀ (u2 v1 v2 : List Char), '/' ∉ u1 → '/' ∉ u2 →
      u1 ++ '/' :: v1 = u2 ++ '/' :: v2 → u1 = u2 ∧ v1 = v2 := by
  induction u1 with
  | nil =>
    intro u2 v1 v2 h1 h2 heq
    rcases u2 with _ | ⟨c, u2'⟩
    · simp at heq
      simp [heq]
    · simp only [List.nil_append, List.cons_append, List.cons.injEq] at heq
      exact absurd (List.mem_cons.mpr (Or.inl heq.1)) h2
  | cons c u1' ih =>
    intro u2 v1 v2 h1 h2 heq
    rcases u2 with _ | ⟨c2, u2'⟩
    · simp only [List.cons_append, List.nil_append, List.cons.injEq] at heq
      exact absurd (List.mem_cons.mpr (Or.inl heq.1.symm)) h1
    · simp only [List.cons_append, List.cons.injEq] at heq
      obtain ⟨h3, h4⟩ := ih u2' v1 v2 (fun hc => h1 (by simp [hc]))
        (fun hc => h2 (by simp [hc])) heq.2
      exact ⟨by simp [heq.1, h3], h4⟩

theorem append_slash_inj_right (u1 u2 v1 v2 : List Char) (h1 : '/' ∉ v1) (h2 : '/' ∉ v2)
    (heq : u1 ++ '/' :: v1 = u2 ++ '/' :: v2) : u1 = u2 ∧ v1 = v2 := by
  have hrev : v1.reverse ++ '/' :: u1.reverse = v2.reverse ++ '/' :: u2.reverse := by
    have h := congrArg List.reverse heq
    simpa [List.reverse_append, List.append_assoc] using h
  obtain ⟨ha, hb⟩ := append_slash_inj v1.reverse v2.reverse u1.reverse u2.reverse
    (fun hc => h1 (List.mem_reverse.mp hc)) (fun hc => h2 (List.mem_reverse.mp hc)) hrev
  constructor
  · have := congrArg List.reverse hb
    simpa using this
  · have := congrArg List.reverse ha
    simpa using this

theorem rdsStep_good (st : List (List Char) × Bool) (elem : List Char)
    (hg : rdsGood st) (he : '/' ∉ elem) : rdsGood (rdsStep st elem) := by
  obtain ⟨segs, f⟩ := st
  obtain ⟨hflag, hseg⟩ := hg
  simp only [rdsGood] at hseg ⊢
  simp only [rdsStep]
  by_cases h1 : elem = ['.']
  · rw [if_pos h1]
    exact ⟨by simp, hseg⟩
  · rw [if_neg h1]
    by_cases h2 : elem = ['.', '.']
    · rw [if_pos h2]
      by_cases h3 : segs.length ≤ 1
      · rw [if_pos h3]
        exact ⟨fun _ => rfl, by simp⟩
      · rw [if_neg h3]
        refine ⟨by simp, ?_⟩
        intro seg hs
        exact hseg seg (List.dropLast_subset _ hs)
    · rw [if_neg h2]
      refine ⟨by simp, ?_⟩
      by_cases h4 : f = false ∧ segs = []
      · rw [if_pos h4]
        intro seg hs
        rcases List.mem_cons.mp hs with h5 | h5
        · simp [h5]
        · simp only [List.mem_singleton] at h5
          rw [h5]
          exact he
      · rw [if_neg h4]
        intro seg hs
        rcases List.mem_append.mp hs with h5 | h5
        · exact hseg seg h5
        · simp only [List.mem_singleton] at h5
          rw [h5]
          exact he

theorem rdsStep_congr (s1 s2 : List (List Char) × Bool) (elem : List Char)
    (hg1 : rdsGood s1) (hg2 : rdsGood s2)
    (hj : joinSlash s1.1 = joinSlash s2.1) (hf : s1.2 = s2.2) :
    joinSlash (rdsStep s1 elem).1 = joinSlash (rdsStep s2 elem).1 ∧
    (rdsStep s1 elem).2 = (rdsStep s2 elem).2 := by
  obtain ⟨g1, f1⟩ := s1
  obtain ⟨g2, f2⟩ := s2
  obtain ⟨hfl1, hsg1⟩ := hg1
  obtain ⟨hfl2, hsg2⟩ := hg2
  simp only at hj hf hfl1 hfl2 hsg1 hsg2
  simp only [rdsStep]
  rw [hf] at hfl1 ⊢
  by_cases h1 : elem = ['.']
  · rw [if_pos h1, if_pos h1]
    exact ⟨hj, rfl⟩
  · rw [if_neg h1]
    rw [if_neg h1]
    by_cases h2 : elem = ['.', '.']
    · rw [if_pos h2, if_pos h2]
      have hlen : (2 ≤ g1.length) ↔ (2 ≤ g2.length) := by
        have e1 := slash_mem_joinSlash_iff g1 hsg1
        have e2 := slash_mem_joinSlash_iff g2 hsg2
        rw [hj] at e1
        exact e1.symm.trans e2
      by_cases h3 : g1.length ≤ 1
      · rw [if_pos h3, if_pos (by omega : g2.length ≤ 1)]
        exact ⟨rfl, rfl⟩
      · rw [if_neg h3, if_neg (by omega : ¬ g2.length ≤ 1)]
        refine ⟨?_, rfl⟩
        have hl1 : 2 ≤ g1.length := by omega
        have hl2 : 2 ≤ g2.length := by omega
        have hg1ne : g1 ≠ [] := by intro h; rw [h] at hl1; simp at hl1
        have hg2ne : g2 ≠ [] := by intro h; rw [h] at hl2; simp at hl2
        have hdl1ne : g1.dropLast ≠ [] := by
          intro h
          have := List.length_dropLast g1
          rw [h] at this
          simp at this
          omega
        have hdl2ne : g2.dropLast ≠ [] := by
          intro h
          have := List.length_dropLast g2
          rw [h] at this
          simp at this
          omega
        have hj2 : joinSlash g1.dropLast ++ '/' :: g1.getLast hg1ne
            = joinSlash g2.dropLast ++ '/' :: g2.getLast hg2ne := by
          rw [← joinSlash_append_single _ _ hdl1ne, ← joinSlash_append_single _ _ hdl2ne,
            List.dropLast_append_getLast hg1ne, List.dropLast_append_getLast hg2ne]
          exact hj
        exact (append_slash_inj_right _ _ _ _
          (hsg1 _ (List.getLast_mem hg1ne)) (hsg2 _ (List.getLast_mem hg2ne)) hj2).1
    · rw [if_neg h2, if_neg h2]
      refine ⟨?_, rfl⟩
      rcases hf2 : f2 with _ | _
      · -- flag is false
        by_cases hg1e : g1 = []
        · by_cases hg2e : g2 = []
          · simp [hg1e, hg2e]
          · have hjn : joinSlash g2 = [] := by rw [← hj, hg1e]; rfl
            rcases joinSlash_eq_nil g2 hjn with h | h
            · exact absurd h hg2e
            · rw [if_pos ⟨rfl, hg1e⟩, if_neg (fun hc => hg2e hc.2), h]
              rfl
        · by_cases hg2e : g2 = []
          · have hjn : joinSlash g1 = [] := by rw [hj, hg2e]; rfl
            rcases joinSlash_eq_nil g1 hjn with h | h
            · exact absurd h hg1e
            · rw [if_neg (fun hc => hg1e hc.2), if_pos ⟨rfl, hg2e⟩, h]
              rfl
          · rw [if_neg (fun hc => hg1e hc.2), if_neg (fun hc => hg2e hc.2)]
            rw [joinSlash_append_single _ _ hg1e, joinSlash_append_single _ _ hg2e, hj]
      · -- flag is true: both empty by goodness
        rw [hfl1 hf2, hfl2 hf2]

theorem foldl_rdsStep_good (elems : List (List Char)) (he : ∀ e ∈ elems, '/' ∉ e) :
    ∀ st, rdsGood st → rdsGood (List.foldl rdsStep st elems) := by
  induction elems with
  | nil => intro st h; exact h
  | cons e rest ih =>
    intro st h
    exact ih (fun x hx => he x (by simp [hx])) _ (rdsStep_good st e h (he e (by simp)))

theorem foldl_rdsStep_congr (elems : List (List Char)) (he : ∀ e ∈ elems, '/' ∉ e) :
    ∀ s1 s2, rdsGood s1 → rdsGood s2 →
      joinSlash s1.1 = joinSlash s2.1 → s1.2 = s2.2 →
      joinSlash (List.foldl rdsStep s1 elems).1 = joinSlash (List.foldl rdsStep s2 elems).1 ∧
      (List.foldl rdsStep s1 elems).2 = (List.foldl rdsStep s2 elems).2 := by
  induction elems with
  | nil => intro s1 s2 _ _ hj hf; exact ⟨hj, hf⟩
  | cons e rest ih =>
    intro s1 s2 hg1 hg2 hj hf
    obtain ⟨hj', hf'⟩ := rdsStep_congr s1 s2 e hg1 hg2 hj hf
    exact ih (fun x hx => he x (by simp [hx])) _ _
      (rdsStep_good s1 e hg1 (he e (by simp))) (rdsStep_good s2 e hg2 (he e (by simp)))
      hj' hf'

theorem rdsStep_cancel (st : List (List Char) × Bool) (w : List Char)
    (hg : rdsGood st) (hw1 : w ≠ ['.']) (hw2 : w ≠ ['.', '.']) :
    joinSlash (rdsStep (rdsStep st w) ['.', '.']).1 = joinSlash st.1 ∧
    (rdsStep (rdsStep st w) ['.', '.']).2 = st.2 := by
  obtain ⟨segs, f⟩ := st
  obtain ⟨hflag, hseg⟩ := hg
  simp only at hflag hseg
  have hstep1 : rdsStep (segs, f) w
      = (if f = false ∧ segs = [] then [[], w] else segs ++ [w], false) := by
    simp only [rdsStep, if_neg hw1, if_neg hw2]
  rw [hstep1]
  have hdd1 : (['.', '.'] : List Char) ≠ ['.'] := by decide
  rcases hfv : f with _ | _
  · by_cases hse : segs = []
    · rw [if_pos ⟨rfl, hse⟩]
      simp only [rdsStep, if_neg hdd1, if_pos rfl]
      rw [if_neg (by simp : ¬ ([[], w] : List (List Char)).length ≤ 1)]
      simp [hse, joinSlash]
    · rw [if_neg (fun hc => hse hc.2)]
      simp only [rdsStep, if_neg hdd1, if_pos rfl]
      have hlen : ¬ (segs ++ [w]).length ≤ 1 := by
        simp only [List.length_append, List.length_singleton]
        have : segs.length ≥ 1 := List.length_pos.mpr hse
        omega
      rw [if_neg hlen]
      simp [List.dropLast_concat]
  · rw [if_neg (by simp : ¬ ((true : Bool) = false ∧ segs = []))]
    rw [hflag hfv]
    simp only [rdsStep, if_neg hdd1, if_pos rfl]
    rw [if_pos (by simp : ([] ++ [w] : List (List Char)).length ≤ 1)]
    simp [hflag hfv]

theorem dropWhile_append_all (p : Char → Bool) (l1 l2 : List Char)
    (h : ∀ c ∈ l1, p c) : (l1 ++ l2).dropWhile p = l2.dropWhile p := by
  induction l1 with
  | nil => rfl
  | cons c cs ih =>
    rw [List.cons_append, List.dropWhile_cons, if_pos (h c (by simp))]
    exact ih (fun x hx => h x (by simp [hx]))

theorem upToLastSlashL_append_no_slash (y x : List Char) (hx : '/' ∉ x) :
    upToLastSlashL (y ++ '/' :: x) = y ++ ['/'] := by
  unfold upToLastSlashL
  rw [List.reverse_append, List.reverse_cons, List.append_assoc, List.singleton_append]
  rw [dropWhile_append_all _ x.reverse _
    (fun c hc => by
      simp only [decide_eq_true_eq]
      intro hcc
      exact hx (List.mem_reverse.mp (hcc ▸ hc)))]
  rw [List.dropWhile_cons]
  rw [if_neg (by simp)]
  simp

theorem resolvePathL_parent (e w x rest : List Char)
    (hw : '/' ∉ w) (hx : '/' ∉ x) (hw1 : w ≠ ['.']) (hw2 : w ≠ ['.', '.'])
    (hrne : rest ≠ []) (hrh : rest.head? ≠ some '/') :
    resolvePathL (e ++ '/' :: (w ++ '/' :: x)) ('.' :: '.' :: '/' :: rest)
      = resolvePathL (e ++ '/' :: w) rest := by
  have hSr_ne := splitSlash_ne_nil rest
  -- both sides merge into a `full` path
  have hfull1 : resolvePathL (e ++ '/' :: (w ++ '/' :: x)) ('.' :: '.' :: '/' :: rest)
      = rdsFull (e ++ '/' :: (w ++ '/' :: ('.' :: '.' :: '/' :: rest))) := by
    unfold resolvePathL
    rw [if_neg (by simp : ¬('.' :: '.' :: '/' :: rest : List Char) = []),
      if_pos (by simp : ('.' :: '.' :: '/' :: rest : List Char).head? ≠ some '/')]
    congr 1
    rw [show e ++ '/' :: (w ++ '/' :: x) = (e ++ '/' :: w) ++ '/' :: x by simp]
    rw [upToLastSlashL_append_no_slash _ x hx]
    simp
  have hfull2 : resolvePathL (e ++ '/' :: w) rest = rdsFull (e ++ '/' :: rest) := by
    unfold resolvePathL
    rw [if_neg hrne, if_pos hrh]
    congr 1
    rw [upToLastSlashL_append_no_slash e w hw]
    simp
  rw [hfull1, hfull2]
  -- segment decompositions of the two merged paths
  have hsplit1 : splitSlash (e ++ '/' :: (w ++ '/' :: ('.' :: '.' :: '/' :: rest)))
      = splitSlash e ++ ([w] ++ ([['.', '.']] ++ splitSlash rest)) := by
    rw [show e ++ '/' :: (w ++ '/' :: ('.' :: '.' :: '/' :: rest))
        = e ++ '/' :: (w ++ '/' :: (['.', '.'] ++ '/' :: rest)) from rfl]
    rw [splitSlash_append_slash, splitSlash_append_slash, splitSlash_append_slash,
      splitSlash_no_slash w hw, splitSlash_no_slash ['.', '.'] (by decide)]
  have hsplit2 : splitSlash (e ++ '/' :: rest) = splitSlash e ++ splitSlash rest :=
    splitSlash_append_slash e rest
  -- the two segment traversals produce the same written path
  have hgood0 : rdsGood (([], true) : List (List Char) × Bool) :=
    ⟨fun _ => rfl, by simp⟩
  have hgoodE : rdsGood (List.foldl rdsStep ([], true) (splitSlash e)) :=
    foldl_rdsStep_good (splitSlash e) (mem_splitSlash_no_slash e) _ hgood0
  have hgoodC : rdsGood (rdsStep (rdsStep (List.foldl rdsStep ([], true) (splitSlash e)) w)
      ['.', '.']) :=
    rdsStep_good _ _ (rdsStep_good _ _ hgoodE hw) (by decide)
  have hcancel := rdsStep_cancel (List.foldl rdsStep ([], true) (splitSlash e)) w hgoodE hw1 hw2
  have hcongr := foldl_rdsStep_congr (splitSlash rest) (mem_splitSlash_no_slash rest)
    _ _ hgoodC hgoodE hcancel.1 hcancel.2
  have hfold1 : List.foldl rdsStep ([], true)
      (splitSlash e ++ ([w] ++ ([['.', '.']] ++ splitSlash rest)))
      = List.foldl rdsStep
          (rdsStep (rdsStep (List.foldl rdsStep ([], true) (splitSlash e)) w) ['.', '.'])
          (splitSlash rest) := by
    rw [List.foldl_append, List.foldl_append, List.foldl_append]
    rfl
  have hfold2 : List.foldl rdsStep ([], true) (splitSlash e ++ splitSlash rest)
      = List.foldl rdsStep (List.foldl rdsStep ([], true) (splitSlash e)) (splitSlash rest) :=
    List.foldl_append _ _ _ _
  have hjoin : joinSlash (List.foldl rdsStep ([], true)
        (splitSlash e ++ ([w] ++ ([['.', '.']] ++ splitSlash rest)))).1
      = joinSlash (List.foldl rdsStep ([], true) (splitSlash e ++ splitSlash rest)).1 := by
    rw [hfold1, hfold2]
    exact hcongr.1
  -- the last segment of both is the last segment of `rest`
  have hlast : (splitSlash e ++ ([w] ++ ([['.', '.']] ++ splitSlash rest))).getLast?
      = (splitSlash e ++ splitSlash rest).getLast? := by
    rw [List.getLast?_append_of_ne_nil _ (by simp [hSr_ne]),
      List.getLast?_append_of_ne_nil _ (by simp [hSr_ne]),
      List.getLast?_append_of_ne_nil _ hSr_ne,
      List.getLast?_append_of_ne_nil _ hSr_ne]
  -- assemble
  unfold rdsFull
  rw [if_neg (by simp : ¬ e ++ '/' :: (w ++ '/' :: ('.' :: '.' :: '/' :: rest)) = []),
    if_neg (by simp : ¬ e ++ '/' :: rest = [])]
  simp only [hsplit1, hsplit2]
  rw [hjoin, hlast]

/-- `..` segments in the reference walk up the base's path hierarchy: for a
base `e/w/x` (with `w` a real segment and `x` the basename) a reference
`../rest` resolves exactly as `rest` resolves against the parent `e/w`. -/
theorem resolvePath_parent (e w x rest : String)
    (hw : '/' ∉ w.data) (hx : '/' ∉ x.data) (hw1 : w ≠ ".") (hw2 : w ≠ "..")
    (hrne : rest ≠ "") (hrh : rest.data.head? ≠ some '/') :
    resolvePath (e ++ "/" ++ w ++ "/" ++ x) ("../" ++ rest)
      = resolvePath (e ++ "/" ++ w) rest := by
  unfold resolvePath
  congr 1
  have hd1 : (e ++ "/" ++ w ++ "/" ++ x).data
      = e.data ++ '/' :: (w.data ++ '/' :: x.data) := by
    simp [String.data_append]
  have hd2 : (("../" ++ rest) : String).data = '.' :: '.' :: '/' :: rest.data := by
    simp [String.data_append]
  have hd3 : (e ++ "/" ++ w).data = e.data ++ '/' :: w.data := by
    simp [String.data_append]
  rw [hd1, hd2, hd3]
  exact resolvePathL_parent e.data w.data x.data rest.data hw hx
    (fun h => hw1 (String.ext (by rw [h])))
    (fun h => hw2 (String.ext (by rw [h])))
    (fun h => hrne (String.ext (by rw [h])))
    hrh

/-- An absolute reference path makes `resolvePath` ignore the base path. -/
theorem resolvePath_absolute (bp1 bp2 rp : String) (h : rp.data.head? = some '/') :
    resolvePath bp1 rp = resolvePath bp2 rp := by
  unfold resolvePath resolvePathL
  have hne : ¬ rp.data = [] := by
    intro hh; rw [hh] at h; exact Option.noConfusion h
  simp [hne, h]

/-- A reference that carries its own query string replaces the base URL's
query string (never merges). -/
theorem resolveReference_rawQuery (u ref : URL) (hq : ref.rawQuery ≠ "") :
    (resolveReference u ref).rawQuery = ref.rawQuery := by
  unfold resolveReference
  by_cases h0 : ref.scheme = "" <;>
    by_cases h1 : ref.scheme ≠ "" ∨ ref.host ≠ "" <;>
      by_cases h2 : ref.opq ≠ "" <;>
        (simp [h0, h1, h2, hq] <;> split <;> rfl)

/-- A reference with an absolute path replaces the base URL's whole path:
the resolution result does not depend on the base path at all. -/
theorem resolveReference_absolute (u : URL) (p1 p2 : String) (ref : URL)
    (habs : ref.path.data.head? = some '/') :
    resolveReference { u with path := p1 } ref
      = resolveReference { u with path := p2 } ref := by
  have hne : ¬ ref.path = "" := by
    intro h; rw [h] at habs; simp at habs
  unfold resolveReference
  by_cases h0 : ref.scheme = "" <;>
    by_cases h1 : ref.scheme ≠ "" ∨ ref.host ≠ "" <;>
      by_cases h2 : ref.opq ≠ "" <;>
        simp [h0, h1, h2, hne, resolvePath_absolute p1 p2 ref.path habs]

/-- C7: `resolveSegmentUrl` performs standard relative-reference resolution
and is a pure function: repeated calls with identical inputs yield identical
output; a `..` segment in the reference walks up the base's path hierarchy
(resolving `../rest` against `e/w/x` equals resolving `rest` against the
parent `e/w`, and the repository's own `../../` test vector resolves as
expected); a reference with an absolute path replaces the base's whole
path, ignoring it entirely; and a reference carrying its own query string
replaces the base's query string rather than merging the two. -/
theorem resolveSegmentUrl_resolution (b r i p1 p2 : String) (u ref : URL)
    (e w x rest : String)
    (habs : ref.path.data.head? = some '/') (hq : ref.rawQuery ≠ "")
    (hw : '/' ∉ w.data) (hx : '/' ∉ x.data) (hw1 : w ≠ ".") (hw2 : w ≠ "..")
    (hrne : rest ≠ "") (hrh : rest.data.head? ≠ some '/') :
    resolveSegmentUrl b r i = resolveSegmentUrl b r i ∧
    resolveSegmentUrl "https://example.com/video/manifest/video.mpd" "../../segment.mp4" i
      = .ok "https://example.com/segment.mp4" ∧
    resolvePath (e ++ "/" ++ w ++ "/" ++ x) ("../" ++ rest)
      = resolvePath (e ++ "/" ++ w) rest ∧
    resolveReference { u with path := p1 } ref = resolveReference { u with path := p2 } ref ∧
    (resolveReference u ref).rawQuery = ref.rawQuery :=
  ⟨rfl, rfl, resolvePath_parent e w x rest hw hx hw1 hw2 hrne hrh,
    resolveReference_absolute u p1 p2 ref habs, resolveReference_rawQuery u ref hq⟩

/-- Witness for C7 at concrete URLs: the `..`-walking test vector, a
concrete parent-directory walk, base URLs differing only in path, and a
reference with its own query string. -/
theorem resolveSegmentUrl_resolution_witness :
    resolveSegmentUrl "https://example.com/video/manifest/video.mpd" "../../segment.mp4" "rep0"
      = .ok "https://example.com/segment.mp4" ∧
    resolvePath ("/video" ++ "/" ++ "manifest" ++ "/" ++ "video.mpd") ("../" ++ "segment.mp4")
      = resolvePath ("/video" ++ "/" ++ "manifest") "segment.mp4" ∧
    resolveReference
        { scheme := "https", opq := "", host := "example.com", path := "/a/b",
          omitHost := false, forceQuery := false, rawQuery := "token=9", fragment := "" }
        { scheme := "", opq := "", host := "", path := "/media/seg_1.mp4",
          omitHost := false, forceQuery := false, rawQuery := "q=1", fragment := "" }
      = resolveReference
        { scheme := "https", opq := "", host := "example.com", path := "/c/d/e",
          omitHost := false, forceQuery := false, rawQuery := "token=9", fragment := "" }
        { scheme := "", opq := "", host := "", path := "/media/seg_1.mp4",
          omitHost := false, forceQuery := false, rawQuery := "q=1", fragment := "" } ∧
    (resolveReference
        { scheme := "https", opq := "", host := "example.com", path := "/a/b",
          omitHost := false, forceQuery := false, rawQuery := "token=9", fragment := "" }
        { scheme := "", opq := "", host := "", path := "/media/seg_1.mp4",
          omitHost := false, forceQuery := false, rawQuery := "q=1", fragment := "" }).rawQuery
      = "q=1" :=
  ⟨(resolveSegmentUrl_resolution "b" "r" "rep0" "/a/b" "/c/d/e"
      { scheme := "https", opq := "", host := "example.com", path := "/a/b",
        omitHost := false, forceQuery := false, rawQuery := "token=9", fragment := "" }
      { scheme := "", opq := "", host := "", path := "/media/seg_1.mp4",
        omitHost := false, forceQuery := false, rawQuery := "q=1", fragment := "" }
      "/video" "manifest" "video.mpd" "segment.mp4"
      (by decide) (by decide) (by decide) (by decide) (by decide) (by decide)
      (by decide) (by decide)).2.1,
    (resolveSegmentUrl_resolution "b" "r" "rep0" "/a/b" "/c/d/e"
      { scheme := "https", opq := "", host := "example.com", path := "/a/b",
        omitHost := false, forceQuery := false, rawQuery := "token=9", fragment := "" }
      { scheme := "", opq := "", host := "", path := "/media/seg_1.mp4",
        omitHost := false, forceQuery := false, rawQuery := "q=1", fragment := "" }
      "/video" "manifest" "video.mpd" "segment.mp4"
      (by decide) (by decide) (by decide) (by decide) (by decide) (by decide)
      (by decide) (by decide)).2.2.1,
    (resolveSegmentUrl_resolution "b" "r" "rep0" "/a/b" "/c/d/e"
      { scheme := "https", opq := "", host := "example.com", path := "/a/b",
        omitHost := false, forceQuery := false, rawQuery := "token=9", fragment := "" }
      { scheme := "", opq := "", host := "", path := "/media/seg_1.mp4",
        omitHost := false, forceQuery := false, rawQuery := "q=1", fragment := "" }
      "/video" "manifest" "video.mpd" "segment.mp4"
      (by decide) (by decide) (by decide) (by decide) (by decide) (by decide)
      (by decide) (by decide)).2.2.2.1,
    (resolveSegmentUrl_resolution "b" "r" "rep0" "/a/b" "/c/d/e"
      { scheme := "https", opq := "", host := "example.com", path := "/a/b",
        omitHost := false, forceQuery := false, rawQuery := "token=9", fragment := "" }
      { scheme := "", opq := "", host := "", path := "/media/seg_1.mp4",
        omitHost := false, forceQuery := false, rawQuery := "q=1", fragment := "" }
      "/video" "manifest" "video.mpd" "segment.mp4"
      (by decide) (by decide) (by decide) (by decide) (by decide) (by decide)
      (by decide) (by decide)).2.2.2.2⟩
